import Mathlib

/-!
Verification of the photo keyword search frontend against its specification.

The development shallowly embeds the TypeScript sources:

* `frontend/src/utils/highlight.ts` (re-exported through `PhotoDetails.tsx`):
  `extractTerms` and `highlightText`;
* `frontend/src/api/client.ts`: `withAccessToken`, `refreshAccessToken`,
  `apiFetch`;
* `frontend/src/api/search.ts`: `searchPhotos`, `asyncSearchPage` request
  construction, and the `Gallery.tsx` infinite-query paging loop;
* `frontend/src/pages/Admin.tsx`: the cancel-button enablement condition;
* the backend run registry, which is not part of the repository snapshot and
  is therefore modelled from the specification where needed.

Strings are modelled as `List Char`; JavaScript's `toUpperCase`/`toLowerCase`
are modelled by Lean's ASCII `Char.toUpper`/`Char.toLower` (the query
operators `AND`/`OR` and all concrete inputs are ASCII).  JavaScript regular
expressions are embedded by recursive scanners implementing the exact
match semantics of the concrete patterns appearing in the source.
-/

namespace PhotoSearch

/-- The set of characters matched by JavaScript's `\s` (and trimmed by
`String.prototype.trim`): space, tab, LF, VT, FF, CR, NBSP, and the Unicode
space separators, line/paragraph separators and BOM. -/
def isJsSpace (c : Char) : Bool :=
  c.toNat = 32 || c.toNat = 9 || c.toNat = 10 || c.toNat = 11 ||
  c.toNat = 12 || c.toNat = 13 || c.toNat = 0xa0 || c.toNat = 0x1680 ||
  (0x2000 ≤ c.toNat && c.toNat ≤ 0x200a) || c.toNat = 0x2028 ||
  c.toNat = 0x2029 || c.toNat = 0x202f || c.toNat = 0x205f ||
  c.toNat = 0x3000 || c.toNat = 0xfeff

/-- The double-quote character, written via its code point to keep the
embedding free of escape sequences. -/
def quoteChar : Char := Char.ofNat 34

/-- One maximal run of non-whitespace characters starting at `c`
(the `\S+` alternative of the token regex in `extractTerms`). -/
def wordToken (c : Char) (rest : List Char) : List Char :=
  c :: rest.takeWhile (fun d => !isJsSpace d)

/-- Embedding of the token scan of `extractTerms` in
`frontend/src/utils/highlight.ts`:

    const regex = /"([^"]+)"|(\S+)/g;
    while ((match = regex.exec(query)) !== null) { ... }

`regex.exec` repeatedly finds the leftmost match; at a given position the
quoted alternative `"([^"]+)"` is tried before `\S+`.  The quoted
alternative succeeds iff the position holds `"` and a later `"` exists with
at least one character between them; the raw token is then the inner
content (`match[1]`).  Otherwise `\S+` yields the maximal non-whitespace
run (`match[2]`).  `fuel` makes the recursion structural; `tokenize` below
instantiates it with the input length, which suffices because every step
consumes at least one character. -/
def tokenizeFuel : Nat → List Char → List (List Char)
  | 0, _ => []
  | _ + 1, [] => []
  | fuel + 1, c :: rest =>
    if isJsSpace c then
      tokenizeFuel fuel rest
    else if c = quoteChar then
      if (rest.takeWhile (fun d => d ≠ quoteChar)).isEmpty ||
          (rest.dropWhile (fun d => d ≠ quoteChar)).isEmpty then
        wordToken c rest :: tokenizeFuel fuel (rest.dropWhile (fun d => !isJsSpace d))
      else
        rest.takeWhile (fun d => d ≠ quoteChar) ::
          tokenizeFuel fuel (rest.dropWhile (fun d => d ≠ quoteChar)).tail
    else
      wordToken c rest :: tokenizeFuel fuel (rest.dropWhile (fun d => !isJsSpace d))

/-- The raw token list produced by the regex loop of `extractTerms`. -/
def tokenize (l : List Char) : List (List Char) := tokenizeFuel l.length l

/-- Embedding of `String.prototype.trim` (strip `isJsSpace` characters from
both ends), used by `extractTerms` via `value.trim()`. -/
def jsTrim (l : List Char) : List Char :=
  ((l.dropWhile isJsSpace).reverse.dropWhile isJsSpace).reverse

/-- Embedding of the per-token processing in `extractTerms`:

    const upper = raw.toUpperCase();
    if (upper === "OR" || upper === "AND") continue;
    const cleaned = raw.startsWith("-") ? raw.slice(1) : raw;
    const value = cleaned.endsWith("*") ? cleaned.slice(0, -1) : cleaned;
    const trimmed = value.trim();
    if (trimmed) terms.push(trimmed);
-/
def processToken (raw : List Char) : Option (List Char) :=
  let upper := raw.map Char.toUpper
  if upper = ['O', 'R'] ∨ upper = ['A', 'N', 'D'] then none
  else
    let cleaned := if raw.head? = some '-' then raw.tail else raw
    let value := if cleaned.getLast? = some '*' then cleaned.dropLast else cleaned
    let trimmed := jsTrim value
    if trimmed.isEmpty then none else some trimmed

/-- First-occurrence de-duplication, the embedding of
`Array.from(new Set(...))` (a JS `Set` keeps insertion order and drops
later duplicates).  `seen` accumulates the values already emitted. -/
def dedupFirstAux (seen : List (List Char)) : List (List Char) → List (List Char)
  | [] => []
  | x :: xs =>
    if x ∈ seen then dedupFirstAux seen xs
    else x :: dedupFirstAux (x :: seen) xs

/-- Embedding of `extractTerms` on character lists: tokenize, classify each
token, lower-case, and de-duplicate keeping first occurrences
(`Array.from(new Set(terms.map((term) => term.toLowerCase())))`). -/
def extractTermsL (query : List Char) : List (List Char) :=
  dedupFirstAux [] (((tokenize query).filterMap processToken).map
    (fun t => t.map Char.toLower))

/-- Embedding of `extractTerms : string → string[]` from
`frontend/src/utils/highlight.ts`. -/
def extractTerms (query : String) : List String :=
  (extractTermsL query.data).map List.asString

example : extractTerms "\x22red dress\x22 wedding OR studio -outdoor" =
    ["red dress", "wedding", "studio", "outdoor"] := by decide

example : extractTerms "he\x22llo world" = ["he\x22llo", "world"] := by decide

example : extractTerms "\x22 a \x22" = ["a"] := by decide

/-! Helper lemmas about `takeWhile`/`dropWhile`. -/

theorem length_dropWhile_le (p : α → Bool) (l : List α) :
    (l.dropWhile p).length ≤ l.length := by
  induction l with
  | nil => simp
  | cons a l ih =>
    rw [List.dropWhile_cons]
    split
    · exact Nat.le_trans ih (Nat.le_succ _)
    · exact Nat.le_refl _

theorem takeWhile_append_all {p : α → Bool} {l l' : List α}
    (h : ∀ a ∈ l, p a = true) :
    (l ++ l').takeWhile p = l ++ l'.takeWhile p := by
  induction l with
  | nil => simp
  | cons a l ih =>
    rw [List.cons_append, List.takeWhile_cons, if_pos (h a (by simp)),
      ih (fun x hx => h x (by simp [hx])), List.cons_append]

theorem dropWhile_append_all {p : α → Bool} {l l' : List α}
    (h : ∀ a ∈ l, p a = true) :
    (l ++ l').dropWhile p = l'.dropWhile p := by
  induction l with
  | nil => simp
  | cons a l ih =>
    rw [List.cons_append, List.dropWhile_cons, if_pos (h a (by simp))]
    exact ih (fun x hx => h x (by simp [hx]))

theorem takeWhile_head_false {p : α → Bool} {l : List α}
    (h : l = [] ∨ ∃ d rest, l = d :: rest ∧ p d = false) :
    l.takeWhile p = [] := by
  rcases h with h | ⟨d, rest, rfl, hd⟩
  · simp [h]
  · rw [List.takeWhile_cons, if_neg (by simp [hd])]

theorem dropWhile_head_false {p : α → Bool} {l : List α}
    (h : l = [] ∨ ∃ d rest, l = d :: rest ∧ p d = false) :
    l.dropWhile p = l := by
  rcases h with h | ⟨d, rest, rfl, hd⟩
  · simp [h]
  · rw [List.dropWhile_cons, if_neg (by simp [hd])]

/-! The fuel argument of `tokenizeFuel` is irrelevant as soon as it bounds
the input length, so `tokenize` satisfies the natural unfolding laws. -/

theorem tokenizeFuel_nil (fuel : Nat) : tokenizeFuel fuel [] = [] := by
  cases fuel <;> rfl

theorem tokenizeFuel_congr :
    ∀ (f₁ f₂ : Nat) (l : List Char), l.length ≤ f₁ → l.length ≤ f₂ →
      tokenizeFuel f₁ l = tokenizeFuel f₂ l := by
  intro f₁
  induction f₁ with
  | zero =>
    intro f₂ l h₁ _
    rw [List.length_eq_zero.mp (Nat.le_zero.mp h₁), tokenizeFuel_nil,
      tokenizeFuel_nil]
  | succ f₁ ih =>
    intro f₂ l h₁ h₂
    cases l with
    | nil => rw [tokenizeFuel_nil, tokenizeFuel_nil]
    | cons c rest =>
      cases f₂ with
      | zero => exact absurd h₂ (by simp)
      | succ f₂ =>
        have hr₁ : rest.length ≤ f₁ := Nat.le_of_succ_le_succ h₁
        have hr₂ : rest.length ≤ f₂ := Nat.le_of_succ_le_succ h₂
        have hdrop : (rest.dropWhile (fun d => !isJsSpace d)).length ≤ rest.length :=
          length_dropWhile_le _ _
        have htail :
            ((rest.dropWhile (fun d => d ≠ quoteChar)).tail).length ≤ rest.length :=
          Nat.le_trans (Nat.le_trans (List.length_tail _ ▸ Nat.sub_le _ _)
            (length_dropWhile_le _ _)) (Nat.le_refl _)
        simp only [tokenizeFuel]
        split
        · exact ih f₂ rest hr₁ hr₂
        · split
          · split
            · rw [ih f₂ _ (Nat.le_trans hdrop hr₁) (Nat.le_trans hdrop hr₂)]
            · rw [ih f₂ _ (Nat.le_trans htail hr₁) (Nat.le_trans htail hr₂)]
          · rw [ih f₂ _ (Nat.le_trans hdrop hr₁) (Nat.le_trans hdrop hr₂)]

theorem tokenizeFuel_eq_tokenize {fuel : Nat} {l : List Char}
    (h : l.length ≤ fuel) : tokenizeFuel fuel l = tokenize l :=
  tokenizeFuel_congr fuel l.length l h (Nat.le_refl _)

theorem tokenize_cons_space {c : Char} {rest : List Char}
    (h : isJsSpace c = true) : tokenize (c :: rest) = tokenize rest := by
  show tokenizeFuel (rest.length + 1) (c :: rest) = tokenize rest
  simp only [tokenizeFuel, h, if_true]
  exact tokenizeFuel_eq_tokenize (Nat.le_refl _)

theorem tokenize_cons_word {c : Char} {rest : List Char}
    (h1 : isJsSpace c = false) (h2 : c ≠ quoteChar) :
    tokenize (c :: rest) =
      wordToken c rest :: tokenize (rest.dropWhile (fun d => !isJsSpace d)) := by
  show tokenizeFuel (rest.length + 1) (c :: rest) = _
  simp only [tokenizeFuel, h1, h2, if_false, Bool.false_eq_true]
  rw [tokenizeFuel_eq_tokenize (Nat.le_trans (length_dropWhile_le _ _) (Nat.le_refl _))]

theorem tokenize_cons_quote_success {content after : List Char}
    (hc : content ≠ []) (hq : quoteChar ∉ content) :
    tokenize (quoteChar :: (content ++ quoteChar :: after)) =
      content :: tokenize after := by
  have hall : ∀ a ∈ content, (fun d => decide (d ≠ quoteChar)) a = true := by
    intro a ha
    simp only [decide_eq_true_eq, ne_eq]
    intro hEq
    exact hq (hEq ▸ ha)
  have htake : (content ++ quoteChar :: after).takeWhile (fun d => decide (d ≠ quoteChar))
      = content := by
    rw [takeWhile_append_all hall, List.takeWhile_cons, if_neg (by simp),
      List.append_nil]
  have hdrop : (content ++ quoteChar :: after).dropWhile (fun d => decide (d ≠ quoteChar))
      = quoteChar :: after := by
    rw [dropWhile_append_all hall, List.dropWhile_cons, if_neg (by simp)]
  show tokenizeFuel ((content ++ quoteChar :: after).length + 1)
    (quoteChar :: (content ++ quoteChar :: after)) = content :: tokenize after
  simp only [tokenizeFuel]
  rw [if_neg (by decide : ¬isJsSpace quoteChar = true), if_pos trivial, htake, hdrop]
  rw [if_neg (by simp [hc]), List.tail_cons]
  rw [tokenizeFuel_eq_tokenize (by
    simp only [List.length_append, List.length_cons]
    omega)]

/-! Specification-side view of the tokenization rule (C1): a query is a
whitespace-separated sequence of well-formed items, each either a quoted
phrase or a bare word; the spec says a quoted span yields one phrase token
holding the inner content, and any other maximal non-whitespace run yields
one token. -/

/-- A query item in the sense of the spec tokenization rule: a double-quoted
phrase or a bare word. -/
inductive QToken where
  | phrase (content : List Char)
  | word (chars : List Char)

/-- The token text the spec assigns to a query item: the inner content for a
quoted phrase, the characters themselves for a word. -/
def QToken.content : QToken → List Char
  | .phrase c => c
  | .word c => c

/-- Render a query item back to its source text. -/
def renderToken : QToken → List Char
  | .phrase c => quoteChar :: (c ++ [quoteChar])
  | .word c => c

/-- Render a query as its items separated by single spaces. -/
def renderQuery : List QToken → List Char
  | [] => []
  | [t] => renderToken t
  | t :: ts => renderToken t ++ ' ' :: renderQuery ts

/-- Well-formedness of a query item: a phrase has nonempty quote-free
content (internal whitespace allowed), a word is a nonempty run of
non-whitespace characters containing no double quote. -/
def WFToken : QToken → Prop
  | .phrase c => c ≠ [] ∧ quoteChar ∉ c
  | .word c => c ≠ [] ∧ quoteChar ∉ c ∧ ∀ d ∈ c, isJsSpace d = false

instance : DecidablePred WFToken := fun t =>
  match t with
  | .phrase c => inferInstanceAs (Decidable (c ≠ [] ∧ quoteChar ∉ c))
  | .word c =>
    inferInstanceAs (Decidable (c ≠ [] ∧ quoteChar ∉ c ∧ ∀ d ∈ c, isJsSpace d = false))

theorem tokenize_render_cons {t : QToken} {tail : List Char} (hWF : WFToken t)
    (htail : tail = [] ∨ ∃ d rest, tail = d :: rest ∧ isJsSpace d = true) :
    tokenize (renderToken t ++ tail) = t.content :: tokenize tail := by
  have htail' : tail = [] ∨
      ∃ d rest, tail = d :: rest ∧ (fun d => !isJsSpace d) d = false := by
    rcases htail with h | ⟨d, rest, rfl, hd⟩
    · exact Or.inl h
    · exact Or.inr ⟨d, rest, rfl, by simp [hd]⟩
  cases t with
  | word c =>
    obtain ⟨hne, hqf, hns⟩ := hWF
    cases c with
    | nil => exact absurd rfl hne
    | cons ch cs =>
      have hch : isJsSpace ch = false := hns ch (by simp)
      have hchq : ch ≠ quoteChar := by
        intro hEq
        exact hqf (hEq ▸ List.mem_cons_self _ _)
      rw [renderToken, QToken.content, List.cons_append,
        tokenize_cons_word hch hchq]
      have hcs : ∀ a ∈ cs, (fun d => !isJsSpace d) a = true := by
        intro a ha
        simp [hns a (by simp [ha])]
      rw [wordToken, takeWhile_append_all hcs, takeWhile_head_false htail',
        dropWhile_append_all hcs, dropWhile_head_false htail',
        List.append_nil]
  | phrase c =>
    obtain ⟨hne, hqf⟩ := hWF
    rw [renderToken, QToken.content, List.cons_append, List.append_assoc,
      List.cons_append, List.nil_append]
    exact tokenize_cons_quote_success hne hqf

theorem tokenize_renderQuery :
    ∀ items : List QToken, (∀ t ∈ items, WFToken t) →
      tokenize (renderQuery items) = items.map QToken.content := by
  intro items
  induction items with
  | nil => intro _; rfl
  | cons t ts ih =>
    intro h
    cases ts with
    | nil =>
      show tokenize (renderToken t) = _
      rw [show renderToken t = renderToken t ++ [] by simp,
        tokenize_render_cons (h t (by simp)) (Or.inl rfl)]
      rfl
    | cons u us =>
      show tokenize (renderToken t ++ ' ' :: renderQuery (u :: us)) = _
      rw [tokenize_render_cons (h t (by simp))
        (Or.inr ⟨' ', renderQuery (u :: us), rfl, by decide⟩),
        tokenize_cons_space (by decide), List.map_cons,
        ih (fun x hx => h x (by simp [hx]))]

/-- C1: `extractTerms` tokenizes left to right — every quoted span in a
well-formed query yields exactly one token holding the span's inner content
(internal spaces preserved) and every maximal run of non-whitespace
characters outside quotes yields one token; and on the query
`"red dress" wedding OR studio -outdoor` it returns exactly the terms
`red dress`, `wedding`, `studio`, `outdoor`. -/
theorem extractTerms_tokenization :
    (∀ items : List QToken, (∀ t ∈ items, WFToken t) →
      tokenize (renderQuery items) = items.map QToken.content)
    ∧ extractTerms "\x22red dress\x22 wedding OR studio -outdoor" =
      ["red dress", "wedding", "studio", "outdoor"] :=
  ⟨tokenize_renderQuery, by decide⟩

/-- Witness for C1 at a concrete well-formed query:
tokenizing `"red dress" -outdoor` yields the raw tokens
`red dress` and `-outdoor`. -/
theorem extractTerms_tokenization_witness :
    tokenize (renderQuery [QToken.phrase ('r' :: 'e' :: 'd' :: ' ' :: ['d']),
        QToken.word ('-' :: 'o' :: ['k'])]) =
      [('r' :: 'e' :: 'd' :: ' ' :: ['d']), ('-' :: 'o' :: ['k'])] ∧
    extractTerms "\x22red dress\x22 wedding OR studio -outdoor" =
      ["red dress", "wedding", "studio", "outdoor"] :=
  ⟨extractTerms_tokenization.1 _ (by decide), extractTerms_tokenization.2⟩

/-! Claim C2: the normalization pipeline applied to each raw token. -/

/-- Case-insensitive comparison of two character lists, modelled as in
ECMAScript canonicalization: upper-case both sides and compare. -/
def ciEq (a b : List Char) : Prop :=
  a.map Char.toUpper = b.map Char.toUpper

instance (a b : List Char) : Decidable (ciEq a b) :=
  inferInstanceAs (Decidable (a.map Char.toUpper = b.map Char.toUpper))

/-- Strip one leading dash, as the spec words it for negated terms. -/
def stripLeadingDash (l : List Char) : List Char :=
  if l.head? = some '-' then l.tail else l

/-- Strip one trailing star, as the spec words it for prefix-wildcard
terms. -/
def stripTrailingStar (l : List Char) : List Char :=
  if l.getLast? = some '*' then l.dropLast else l

/-- The per-token contribution exactly as claim C2 words it: drop tokens
equal to `AND`/`OR` case-insensitively; otherwise strip a leading dash and
then a trailing star and case-fold to lower case; a token that reduces to
the empty string contributes nothing.  (No whitespace trimming: the claim
does not mention it.) -/
def claimProcessC2 (raw : List Char) : Option (List Char) :=
  if ciEq raw ['O', 'R'] ∨ ciEq raw ['A', 'N', 'D'] then none
  else
    let value := stripTrailingStar (stripLeadingDash raw)
    if value.isEmpty then none else some (value.map Char.toLower)

/-- The full term set exactly as claim C2 words it. -/
def claimTermsC2 (query : List Char) : List (List Char) :=
  dedupFirstAux [] ((tokenize query).filterMap claimProcessC2)

/-- The per-token contribution as amended: like `claimProcessC2` but with
surrounding whitespace trimmed (as `extractTerms` does via
`value.trim()`) before the empty-check and the case fold. -/
def specProcessC2 (raw : List Char) : Option (List Char) :=
  if ciEq raw ['O', 'R'] ∨ ciEq raw ['A', 'N', 'D'] then none
  else
    let value := jsTrim (stripTrailingStar (stripLeadingDash raw))
    if value.isEmpty then none else some (value.map Char.toLower)

/-- The full term set as amended. -/
def specTermsC2 (query : List Char) : List (List Char) :=
  dedupFirstAux [] ((tokenize query).filterMap specProcessC2)

theorem processToken_spec (raw : List Char) :
    (processToken raw).map (List.map Char.toLower) = specProcessC2 raw := by
  have e1 : ciEq raw ['O', 'R'] ↔ raw.map Char.toUpper = ['O', 'R'] := by
    unfold ciEq
    rw [show List.map Char.toUpper ['O', 'R'] = ['O', 'R'] from by decide]
  have e2 : ciEq raw ['A', 'N', 'D'] ↔ raw.map Char.toUpper = ['A', 'N', 'D'] := by
    unfold ciEq
    rw [show List.map Char.toUpper ['A', 'N', 'D'] = ['A', 'N', 'D'] from by decide]
  have hmap : ∀ (P : Prop) [Decidable P] (v : List Char),
      Option.map (List.map Char.toLower) (if P then none else some v) =
        if P then none else some (v.map Char.toLower) := by
    intro P inst v
    split
    · rfl
    · rfl
  simp only [processToken, specProcessC2, stripLeadingDash, stripTrailingStar,
    e1, e2, List.isEmpty_eq_true]
  split
  · rfl
  · exact hmap _ _

/-! Properties of first-occurrence de-duplication. -/

theorem dedupFirstAux_subset :
    ∀ (l : List (List Char)) (seen : List (List Char)) (x : List Char),
      x ∈ dedupFirstAux seen l → x ∈ l := by
  intro l
  induction l with
  | nil => intro seen x h; exact absurd h (by simp [dedupFirstAux])
  | cons a l ih =>
    intro seen x h
    rw [dedupFirstAux] at h
    by_cases ha : a ∈ seen
    · rw [if_pos ha] at h
      exact List.mem_cons_of_mem _ (ih seen x h)
    · rw [if_neg ha] at h
      rcases List.mem_cons.mp h with h | h
      · exact h ▸ List.mem_cons_self _ _
      · exact List.mem_cons_of_mem _ (ih _ x h)

theorem dedupFirstAux_not_mem_seen :
    ∀ (l : List (List Char)) (seen : List (List Char)) (x : List Char),
      x ∈ dedupFirstAux seen l → x ∉ seen := by
  intro l
  induction l with
  | nil => intro seen x h; exact absurd h (by simp [dedupFirstAux])
  | cons a l ih =>
    intro seen x h
    rw [dedupFirstAux] at h
    by_cases ha : a ∈ seen
    · rw [if_pos ha] at h
      exact ih seen x h
    · rw [if_neg ha] at h
      rcases List.mem_cons.mp h with h | h
      · exact h ▸ ha
      · intro hx
        exact ih _ x h (List.mem_cons_of_mem _ hx)

theorem dedupFirstAux_nodup :
    ∀ (l : List (List Char)) (seen : List (List Char)),
      (dedupFirstAux seen l).Nodup := by
  intro l
  induction l with
  | nil => intro seen; simp [dedupFirstAux]
  | cons a l ih =>
    intro seen
    rw [dedupFirstAux]
    by_cases ha : a ∈ seen
    · rw [if_pos ha]; exact ih seen
    · rw [if_neg ha]
      refine List.nodup_cons.mpr ⟨?_, ih _⟩
      intro hmem
      exact dedupFirstAux_not_mem_seen l (a :: seen) a hmem (List.mem_cons_self _ _)

/-- C2 counterexample: on the query `" a "` (a quoted span whose content
carries surrounding spaces) `extractTerms` trims the token to `a`, whereas
the claim as stated — no trimming step — predicts the term ` a `. -/
theorem extractTerms_normalization_counterexample :
    extractTerms "\x22 a \x22" = ["a"] ∧
    (claimTermsC2 ("\x22 a \x22".data)).map List.asString = [" a "] ∧
    (extractTermsL ("\x22 a \x22".data)).map List.asString ≠
      (claimTermsC2 ("\x22 a \x22".data)).map List.asString :=
  ⟨by decide, by decide, by decide⟩

/-- C2 (amended): tokens equal to `AND`/`OR` case-insensitively are
excluded; every other token contributes its text with a leading `-`
stripped if present, then a trailing `*` stripped if present, then
surrounding whitespace trimmed, case-folded to lower case; tokens that
reduce to the empty string contribute nothing, and the resulting list is
de-duplicated keeping first occurrences, so each term appears exactly
once. -/
theorem extractTerms_normalization (q : String) :
    extractTermsL q.data = specTermsC2 q.data ∧ (extractTermsL q.data).Nodup := by
  constructor
  · unfold extractTermsL specTermsC2
    rw [List.map_filterMap]
    rw [show (fun x => (processToken x).map (List.map Char.toLower)) = specProcessC2
      from funext processToken_spec]
  · exact dedupFirstAux_nodup _ _

/-! Claim C3: totality and unmatched quotes. -/

theorem processToken_ne_nil {raw t : List Char} (h : processToken raw = some t) :
    t ≠ [] := by
  intro hnil
  subst hnil
  simp only [processToken] at h
  split at h
  · exact absurd h (by simp)
  · split at h <;> split at h <;> split at h <;>
      first
      | exact Option.noConfusion h
      | (rename_i hne
         apply hne
         rw [List.isEmpty_iff]
         exact Option.some.inj h)

/-- C3: `extractTerms` is total — it is a plain function on strings whose
every output term is nonempty — and an unmatched double quote is treated as
a literal `"` character: it stays inside the surrounding non-whitespace
token instead of causing a failure. -/
theorem extractTerms_total :
    (∀ q : String, ∀ t ∈ extractTerms q, t ≠ "")
    ∧ tokenize ("ab \x22cd ef".data) =
        [("ab" : String).data, ("\x22cd" : String).data, ("ef" : String).data]
    ∧ extractTerms "ab \x22cd ef" = ["ab", "\x22cd", "ef"] := by
  refine ⟨?_, by decide, by decide⟩
  intro q t ht hEq
  rcases List.mem_map.mp ht with ⟨l, hl, rfl⟩
  have hl' := dedupFirstAux_subset _ _ _ hl
  rcases List.mem_map.mp hl' with ⟨raw, hraw, rfl⟩
  rcases List.mem_filterMap.mp hraw with ⟨tok, _, htok⟩
  have hne : raw ≠ [] := processToken_ne_nil htok
  have : (raw.map Char.toLower) = [] := congrArg String.data hEq
  exact hne (List.map_eq_nil_iff.mp this)

/-- Witness for C3: the term `x` of the query `x` is a nonempty term. -/
theorem extractTerms_total_witness :
    "x" ∈ extractTerms "x" ∧ "x" ≠ "" :=
  ⟨by decide, extractTerms_total.1 "x" "x" (by decide)⟩

/-! Claim C8: `highlightText` from `frontend/src/utils/highlight.ts`. -/

/-- The characters escaped by `escapeRegex`
(`value.replace(/[.*+?^$\x7b\x7d()|[\]\\]/g, ...)`). -/
def isRegexSpecial (c : Char) : Bool :=
  c = '.' || c = '*' || c = '+' || c = '?' || c = '^' || c = '$' ||
  c = Char.ofNat 0x7b || c = Char.ofNat 0x7d || c = '(' || c = ')' ||
  c = '|' || c = '[' || c = ']' || c = Char.ofNat 92

/-- Embedding of `escapeRegex`: prefix every regex metacharacter with a
backslash, so the resulting pattern matches the original text literally. -/
def escapeRegex (l : List Char) : List Char :=
  l.flatMap (fun c => if isRegexSpecial c then [Char.ofNat 92, c] else [c])

/-- Case-insensitive prefix test for one literal alternative, following the
ECMAScript `i`-flag canonicalization (upper-case both characters). -/
def ciIsPrefix : List Char → List Char → Bool
  | [], _ => true
  | _ :: _, [] => false
  | a :: as, c :: cs => (a.toUpper = c.toUpper) && ciIsPrefix as cs

/-- The leftmost-alternative match attempt of the alternation regex
`(t1|t2|...)` at the head of `rest`: the first alternative (in pattern
order) that matches case-insensitively wins, and the match length is that
alternative's length. -/
def findAltLen (alts : List (List Char)) (rest : List Char) : Option Nat :=
  match alts with
  | [] => none
  | a :: more => if ciIsPrefix a rest then some a.length else findAltLen more rest

/-- Embedding of `text.split(splitRegex)` for a capturing alternation of
literal alternatives, following the ECMAScript `String.prototype.split`
algorithm: scan for the leftmost match; an empty match at the start of the
current segment does not split; otherwise emit the pending segment and the
captured (original-case) match text.  `pending` is the segment accumulated
since the last split; `fuel` makes the recursion structural and
`2 * |text| + 2` always suffices. -/
def splitGo : Nat → List (List Char) → List Char → List Char → List (List Char)
  | 0, _, pending, rest => [pending ++ rest]
  | fuel + 1, alts, pending, rest =>
    match rest with
    | [] => [pending]
    | c :: rest' =>
      match findAltLen alts (c :: rest') with
      | none => splitGo fuel alts (pending ++ [c]) rest'
      | some 0 =>
        if pending.isEmpty then splitGo fuel alts [c] rest'
        else pending :: [] :: splitGo fuel alts [] (c :: rest')
      | some (len + 1) =>
        pending :: (c :: rest').take (len + 1) ::
          splitGo fuel alts [] ((c :: rest').drop (len + 1))

/-- A React node produced by `highlightText`: a highlighted `<mark>` element
or a plain `<span>` element, each holding its text content. -/
inductive HighlightNode where
  | mark (s : String)
  | span (s : String)
deriving DecidableEq

/-- The value returned by `highlightText`: either the input string itself
(the early returns) or the array of rendered nodes. -/
inductive HighlightResult where
  | plain (s : String)
  | nodes (ns : List HighlightNode)
deriving DecidableEq

/-- The text content of a rendered node. -/
def nodeText : HighlightNode → String
  | .mark s => s
  | .span s => s

/-- The concatenated text content of a `highlightText` result. -/
def highlightContent : HighlightResult → String
  | .plain s => s
  | .nodes ns => String.join (ns.map nodeText)

/-- Embedding of `matchRegex.test(part)` for `^(t1|t2|...)$` with the `i`
flag: the part equals some alternative case-insensitively. -/
def matchWhole (alts : List (List Char)) (part : List Char) : Bool :=
  alts.any (fun a => decide (ciEq a part))

/-- Stable insertion for the sort `(a, b) => b.length - a.length`: walk past
the strictly longer elements, then insert, so equal-length elements keep
their original relative order. -/
def insertByLenDesc (x : List Char) : List (List Char) → List (List Char)
  | [] => [x]
  | y :: ys =>
    if x.length < y.length then y :: insertByLenDesc x ys else x :: y :: ys

/-- Embedding of `[...terms].sort((a, b) => b.length - a.length)`: the
ECMAScript sort is stable and the comparator is a consistent total
preorder on lengths, so the result is the unique stable length-descending
reordering, computed here by insertion sort. -/
def sortByLenDesc : List (List Char) → List (List Char)
  | [] => []
  | x :: xs => insertByLenDesc x (sortByLenDesc xs)

theorem mem_insertByLenDesc {a x : List Char} :
    ∀ {l : List (List Char)}, a ∈ insertByLenDesc x l ↔ a = x ∨ a ∈ l := by
  intro l
  induction l with
  | nil => simp [insertByLenDesc]
  | cons y ys ih =>
    rw [insertByLenDesc]
    split
    · rw [List.mem_cons, ih, List.mem_cons]
      tauto
    · rw [List.mem_cons, List.mem_cons]

theorem mem_sortByLenDesc {a : List Char} :
    ∀ {l : List (List Char)}, a ∈ sortByLenDesc l ↔ a ∈ l := by
  intro l
  induction l with
  | nil => simp [sortByLenDesc]
  | cons y ys ih =>
    rw [sortByLenDesc, mem_insertByLenDesc, ih, List.mem_cons]

/-- Embedding of `highlightText` from `frontend/src/utils/highlight.ts`:
early-return on empty text or empty term list; sort the terms by length
descending (stable, `(a, b) => b.length - a.length`); join the escaped
terms into an alternation pattern and early-return if it is empty; split
the text on the capturing alternation and wrap the parts that wholly match
an alternative in `<mark>`, the rest in `<span>`.  Because `escapeRegex`
escapes every metacharacter, the compiled alternation matches the sorted
terms literally, which is how the splitter and the whole-match test embed
the two regexes. -/
def highlightText (text : String) (terms : List String) : HighlightResult :=
  if text = "" ∨ terms = [] then .plain text
  else
    let sorted := sortByLenDesc (terms.map String.data)
    let pattern := String.intercalate "|" ((sorted.map escapeRegex).map List.asString)
    if pattern = "" then .plain text
    else
      .nodes ((splitGo (2 * text.data.length + 2) sorted [] text.data).map
        (fun part =>
          if matchWhole sorted part then HighlightNode.mark part.asString
          else HighlightNode.span part.asString))

example : highlightText "Red dress" ["red"] =
    .nodes [.span "", .mark "Red", .span " dress"] := by decide

example : highlightText "wedding day" ["wedding", "day"] =
    .nodes [.span "", .mark "wedding", .span " ", .mark "day", .span ""] := by
  decide

/-- The ECMAScript split loop preserves the text: the emitted parts
(segments and captures) concatenate back to `pending ++ rest`. -/
theorem splitGo_flatten :
    ∀ (fuel : Nat) (alts : List (List Char)) (pending rest : List Char),
      2 * rest.length + (if pending = [] then 0 else 1) < fuel →
      (splitGo fuel alts pending rest).flatten = pending ++ rest := by
  intro fuel
  induction fuel with
  | zero => intro alts pending rest h; exact absurd h (by omega)
  | succ fuel ih =>
    intro alts pending rest h
    have hbit : (if pending = [] then 0 else 1) ≤ 1 := by
      split
      · exact Nat.zero_le _
      · exact Nat.le_refl _
    match rest with
    | [] => simp [splitGo]
    | c :: rest' =>
      rw [splitGo]
      cases hfind : findAltLen alts (c :: rest') with
      | none =>
        rw [ih alts (pending ++ [c]) rest' (by
          rw [if_neg (by simp)]
          simp only [List.length_cons] at h
          omega)]
        simp
      | some len =>
        cases len with
        | zero =>
          by_cases hp : pending = []
          · rw [if_pos (List.isEmpty_iff.mpr hp)]
            rw [ih alts [c] rest' (by
              rw [if_neg (by simp)]
              simp only [List.length_cons] at h
              omega)]
            rw [hp]
            simp
          · rw [if_neg (fun hEmpty => hp (List.isEmpty_iff.mp hEmpty))]
            simp only [List.flatten_cons, List.nil_append]
            rw [ih alts [] (c :: rest') (by
              rw [if_pos rfl]
              rw [if_neg hp] at h
              simp only [List.length_cons] at h ⊢
              omega)]
            simp
        | succ len =>
          simp only [List.flatten_cons]
          rw [ih alts [] ((c :: rest').drop (len + 1)) (by
            rw [if_pos rfl, List.length_drop]
            simp only [List.length_cons] at h ⊢
            omega)]
          rw [List.nil_append, List.take_append_drop]

theorem foldl_append_data :
    ∀ (l : List String) (s : String),
      (l.foldl (fun r x => r ++ x) s).data = s.data ++ (l.map String.data).flatten := by
  intro l
  induction l with
  | nil => intro s; simp
  | cons a l ih =>
    intro s
    simp only [List.foldl_cons, List.map_cons, List.flatten_cons]
    rw [ih (s ++ a), String.data_append, List.append_assoc]

theorem join_map_asString (parts : List (List Char)) :
    String.join (parts.map List.asString) = parts.flatten.asString := by
  apply String.ext
  show (String.join (parts.map List.asString)).data = parts.flatten
  rw [String.join, foldl_append_data, List.map_map]
  rw [show String.data ∘ List.asString = fun p : List Char => p from funext (fun p => rfl)]
  simp

/-- C8: `highlightText` preserves the text content — the concatenated
textual contents of the returned nodes equal the input text; with an empty
term list or empty text the input is returned unchanged; and a part is
wrapped in a `<mark>` element exactly when it equals one of the terms under
case-insensitive comparison. -/
theorem highlightText_spec (text : String) (terms : List String) :
    highlightContent (highlightText text terms) = text
    ∧ (terms = [] → highlightText text terms = HighlightResult.plain text)
    ∧ (text = "" → highlightText text terms = HighlightResult.plain text)
    ∧ (∀ ns, highlightText text terms = HighlightResult.nodes ns →
        ∀ node ∈ ns,
          (∃ s, node = HighlightNode.mark s ∧ ∃ t ∈ terms, ciEq t.data s.data) ∨
          (∃ s, node = HighlightNode.span s ∧ ¬∃ t ∈ terms, ciEq t.data s.data)) := by
  by_cases h0 : text = "" ∨ terms = []
  · have hres : highlightText text terms = HighlightResult.plain text := by
      simp only [highlightText]
      rw [if_pos h0]
    refine ⟨by rw [hres]; rfl, fun _ => hres, fun _ => hres, ?_⟩
    intro ns hns
    rw [hres] at hns
    exact absurd hns (by simp)
  · by_cases hpat : String.intercalate "|"
      (((sortByLenDesc (terms.map String.data)).map escapeRegex).map List.asString) = ""
    · have hres : highlightText text terms = HighlightResult.plain text := by
        simp only [highlightText]
        rw [if_neg h0, if_pos hpat]
      refine ⟨by rw [hres]; rfl, fun _ => hres, fun _ => hres, ?_⟩
      intro ns hns
      rw [hres] at hns
      exact absurd hns (by simp)
    · have hres : highlightText text terms = HighlightResult.nodes
        ((splitGo (2 * text.data.length + 2) (sortByLenDesc (terms.map String.data))
            [] text.data).map
          (fun part =>
            if matchWhole (sortByLenDesc (terms.map String.data)) part
            then HighlightNode.mark part.asString
            else HighlightNode.span part.asString)) := by
        simp only [highlightText]
        rw [if_neg h0, if_neg hpat]
      refine ⟨?_, ?_, ?_, ?_⟩
      · rw [hres]
        simp only [highlightContent, List.map_map]
        rw [show (nodeText ∘ fun part =>
            if matchWhole (sortByLenDesc (terms.map String.data)) part
            then HighlightNode.mark part.asString
            else HighlightNode.span part.asString) = List.asString
          from funext (fun part => by
            simp only [Function.comp]
            split <;> rfl)]
        rw [join_map_asString,
          splitGo_flatten _ _ [] text.data (by rw [if_pos rfl]; omega)]
        rfl
      · intro ht
        exact absurd (Or.inr ht) h0
      · intro ht
        exact absurd (Or.inl ht) h0
      · intro ns hns node hnode
        rw [hres] at hns
        injection hns with h2
        subst h2
        rcases List.mem_map.mp hnode with ⟨part, hpart, hfpart⟩
        by_cases hm : matchWhole (sortByLenDesc (terms.map String.data)) part = true
        · left
          refine ⟨part.asString, ?_, ?_⟩
          · rw [← hfpart, if_pos hm]
          · rcases List.any_eq_true.mp hm with ⟨a, ha, hci⟩
            rcases List.mem_map.mp (mem_sortByLenDesc.mp ha) with ⟨t, ht, rfl⟩
            exact ⟨t, ht, of_decide_eq_true hci⟩
        · right
          refine ⟨part.asString, ?_, ?_⟩
          · rw [← hfpart, if_neg hm]
          · rintro ⟨t, ht, hci⟩
            apply hm
            exact List.any_eq_true.mpr ⟨t.data, mem_sortByLenDesc.mpr
              (List.mem_map.mpr ⟨t, ht, rfl⟩), decide_eq_true hci⟩

/-- Witness for C8 at concrete inputs: the terms of the query `red` applied
to the text `Red dress` preserve the text, and both early returns fire. -/
theorem highlightText_spec_witness :
    highlightContent (highlightText "Red dress" ["red"]) = "Red dress"
    ∧ highlightText "" ["red"] = HighlightResult.plain ""
    ∧ highlightText "Red dress" [] = HighlightResult.plain "Red dress" :=
  ⟨(highlightText_spec "Red dress" ["red"]).1,
   (highlightText_spec "" ["red"]).2.2.1 rfl,
   (highlightText_spec "Red dress" []).2.1 rfl⟩

/-! Claims C9 and C10: the HTTP client `frontend/src/api/client.ts`.
The `localStorage` entry `photo_search_tokens` is modelled by an
`Option StoredTokens` value (`none` when absent or unparsable), and the
network by an oracle giving the responses the three possible `fetch` calls
of one `apiFetch` invocation would receive. -/

/-- The token record stored under `photo_search_tokens`. -/
structure StoredTokens where
  accessToken : String
  refreshToken : String
deriving DecidableEq

/-- Embedding of `getAccessToken`: `tokens?.accessToken ?? null`. -/
def getAccessToken (store : Option StoredTokens) : Option String :=
  match store with
  | none => none
  | some t => some t.accessToken

/-- Characters `encodeURIComponent` leaves unescaped:
`A-Z a-z 0-9 - _ . ! ~ * ' ( )`. -/
def isUriUnreserved (c : Char) : Bool :=
  (65 ≤ c.toNat && c.toNat ≤ 90) || (97 ≤ c.toNat && c.toNat ≤ 122) ||
  (48 ≤ c.toNat && c.toNat ≤ 57) || c = '-' || c = '_' || c = '.' ||
  c = '!' || c = '~' || c = '*' || c = Char.ofNat 39 || c = '(' || c = ')'

/-- The UTF-8 encoding of one code point. -/
def utf8Bytes (n : Nat) : List Nat :=
  if n < 0x80 then [n]
  else if n < 0x800 then [0xc0 + n / 64, 0x80 + n % 64]
  else if n < 0x10000 then [0xe0 + n / 4096, 0x80 + n / 64 % 64, 0x80 + n % 64]
  else [0xf0 + n / 262144, 0x80 + n / 4096 % 64, 0x80 + n / 64 % 64, 0x80 + n % 64]

/-- Upper-case hexadecimal digit of a value below 16. -/
def hexDigit (n : Nat) : Char :=
  if n < 10 then Char.ofNat (48 + n) else Char.ofNat (55 + n)

/-- Percent-escape of one byte. -/
def percentByte (b : Nat) : List Char :=
  ['%', hexDigit (b / 16), hexDigit (b % 16)]

/-- Model of the browser built-in `encodeURIComponent`: unreserved
characters pass through, every other character becomes the percent-escapes
of its UTF-8 bytes. -/
def encodeURIComponent (s : String) : String :=
  (s.data.flatMap (fun c =>
    if isUriUnreserved c then [c] else (utf8Bytes c.toNat).flatMap percentByte)).asString

/-- Embedding of `withAccessToken` from `frontend/src/api/client.ts`:

    const token = getAccessToken();
    if (!token) return url;
    const separator = url.includes("?") ? "&" : "?";
    return `${url}${separator}token=${encodeURIComponent(token)}`;

`!token` is true for `null` and for the empty string. -/
def withAccessToken (store : Option StoredTokens) (url : String) : String :=
  match getAccessToken store with
  | none => url
  | some token =>
    if token = "" then url
    else
      url ++ (if url.data.contains '?' then "&" else "?") ++ "token="
        ++ encodeURIComponent token

/-- One HTTP response: its status code and (for the purposes of this model)
its JSON body, collapsed to the one field the client reads. -/
structure HttpResponse where
  status : Nat
  body : String
deriving DecidableEq

/-- `Response.ok`: the status lies in the 2xx range. -/
def HttpResponse.ok (r : HttpResponse) : Bool :=
  200 ≤ r.status && r.status < 300

/-- The network oracle for one `apiFetch` invocation: the responses the
initial request, the `/auth/refresh` request and the retried request would
receive. -/
structure FetchWorld where
  firstResponse : HttpResponse
  refreshResponse : HttpResponse
  retryResponse : HttpResponse
deriving DecidableEq

/-- Embedding of `refreshAccessToken`: no stored refresh token (absent
record or empty string, both falsy) yields `null` with the store untouched;
a failing refresh response clears the store and yields `null`; a successful
one stores and returns the new access token (the response body models the
`access_token` field).  The source tests `!response.ok`; the branches are
flipped here accordingly. -/
def refreshAccessToken (store : Option StoredTokens) (w : FetchWorld) :
    Option String × Option StoredTokens :=
  match store with
  | none => (none, none)
  | some t =>
    if t.refreshToken = "" then (none, some t)
    else if w.refreshResponse.ok then
      (some w.refreshResponse.body,
        some { t with accessToken := w.refreshResponse.body })
    else (none, none)

/-- The observable outcome of one `apiFetch` call: the returned value or
thrown error, the response the decision was made on, how many times the
main request was sent, and the token store afterwards. -/
inductive ApiResult where
  | ok (body : String)
  | error (status : Nat)
deriving DecidableEq

structure ApiFetchOutcome where
  result : ApiResult
  finalResponse : HttpResponse
  mainRequests : Nat
  store : Option StoredTokens
deriving DecidableEq

/-- Embedding of `apiFetch` from `frontend/src/api/client.ts`: send the
request; on a 401, attempt a token refresh and, if it produced a token,
retry once; finally throw `API error ${status}` when the (possibly
retried) response is not ok, else return its parsed body. -/
def apiFetch (store : Option StoredTokens) (w : FetchWorld) : ApiFetchOutcome :=
  let r1 := w.firstResponse
  if r1.status = 401 then
    match refreshAccessToken store w with
    | (some _, storeAfter) =>
      let r2 := w.retryResponse
      { result := if r2.ok then .ok r2.body else .error r2.status
        finalResponse := r2
        mainRequests := 2
        store := storeAfter }
    | (none, storeAfter) =>
      { result := if r1.ok then .ok r1.body else .error r1.status
        finalResponse := r1
        mainRequests := 1
        store := storeAfter }
  else
    { result := if r1.ok then .ok r1.body else .error r1.status
      finalResponse := r1
      mainRequests := 1
      store := store }

theorem refreshAccessToken_some {store : Option StoredTokens} {w : FetchWorld}
    {tk : String} {storeAfter : Option StoredTokens}
    (h : refreshAccessToken store w = (some tk, storeAfter)) :
    ∃ t, store = some t ∧ t.refreshToken ≠ "" ∧ w.refreshResponse.ok = true := by
  match store with
  | none => exact absurd (congrArg Prod.fst h) (by simp [refreshAccessToken])
  | some t =>
    by_cases hrt : t.refreshToken = ""
    · rw [refreshAccessToken, if_pos hrt] at h
      exact absurd (congrArg Prod.fst h) (by simp)
    · by_cases hok : w.refreshResponse.ok = true
      · exact ⟨t, rfl, hrt, hok⟩
      · rw [refreshAccessToken, if_neg hrt, if_neg (by simp [hok])] at h
        exact absurd (congrArg Prod.fst h) (by simp)

/-- C9: `apiFetch` retries at most once, and only when the first response
is a 401 and a refresh token is stored; it throws exactly when the final
(possibly retried) response is not ok, and otherwise returns that
response's parsed body; without a 401 the first response is final. -/
theorem apiFetch_retry_policy (store : Option StoredTokens) (w : FetchWorld) :
    (apiFetch store w).mainRequests ≤ 2
    ∧ ((apiFetch store w).mainRequests = 2 →
        w.firstResponse.status = 401 ∧ ∃ t, store = some t ∧ t.refreshToken ≠ "")
    ∧ ((∃ st, (apiFetch store w).result = ApiResult.error st) ↔
        (apiFetch store w).finalResponse.ok = false)
    ∧ ((apiFetch store w).finalResponse.ok = true →
        (apiFetch store w).result = ApiResult.ok (apiFetch store w).finalResponse.body)
    ∧ (w.firstResponse.status ≠ 401 →
        (apiFetch store w).finalResponse = w.firstResponse) := by
  have hresult : ∀ r : HttpResponse,
      ((∃ st, (if r.ok then ApiResult.ok r.body else ApiResult.error r.status) =
          ApiResult.error st) ↔ r.ok = false)
      ∧ (r.ok = true →
          (if r.ok then ApiResult.ok r.body else ApiResult.error r.status) =
            ApiResult.ok r.body) := by
    intro r
    by_cases hok : r.ok = true
    · rw [if_pos hok]
      refine ⟨⟨fun ⟨st, hst⟩ => absurd hst (by simp), fun hf => absurd hok (by simp [hf])⟩,
        fun _ => rfl⟩
    · rw [if_neg hok]
      refine ⟨⟨fun _ => by simpa using hok, fun _ => ⟨r.status, rfl⟩⟩,
        fun ht => absurd ht hok⟩
  by_cases h401 : w.firstResponse.status = 401
  · rw [apiFetch, if_pos h401]
    cases hpair : refreshAccessToken store w with
    | mk newTok storeAfter =>
      cases newTok with
      | some tk =>
        dsimp only
        refine ⟨by omega, fun _ => ⟨h401, ?_⟩, (hresult w.retryResponse).1,
          (hresult w.retryResponse).2, fun hne => absurd h401 hne⟩
        rcases refreshAccessToken_some hpair with ⟨t, ht, hrt, _⟩
        exact ⟨t, ht, hrt⟩
      | none =>
        dsimp only
        exact ⟨by omega, fun htwo => absurd htwo (by omega),
          (hresult w.firstResponse).1, (hresult w.firstResponse).2,
          fun hne => absurd h401 hne⟩
  · rw [apiFetch, if_neg h401]
    dsimp only
    exact ⟨by omega, fun htwo => absurd htwo (by omega),
      (hresult w.firstResponse).1, (hresult w.firstResponse).2, fun _ => rfl⟩

/-- Witness for C9 at a concrete store and network: a 401 with a stored
refresh token and a successful refresh leads to exactly one retry whose
body is returned. -/
theorem apiFetch_retry_policy_witness :
    (apiFetch (some ⟨"old", "refresh"⟩)
        ⟨⟨401, "unauthorized"⟩, ⟨200, "fresh"⟩, ⟨200, "payload"⟩⟩).mainRequests ≤ 2
    ∧ ((⟨401, "unauthorized"⟩ : HttpResponse).status = 401
        ∧ ∃ t, (some (⟨"old", "refresh"⟩ : StoredTokens)) = some t
            ∧ t.refreshToken ≠ "")
    ∧ (apiFetch (some ⟨"old", "refresh"⟩)
        ⟨⟨401, "unauthorized"⟩, ⟨200, "fresh"⟩, ⟨200, "payload"⟩⟩).result =
        ApiResult.ok "payload" :=
  ⟨(apiFetch_retry_policy (some ⟨"old", "refresh"⟩)
      ⟨⟨401, "unauthorized"⟩, ⟨200, "fresh"⟩, ⟨200, "payload"⟩⟩).1,
   (apiFetch_retry_policy (some ⟨"old", "refresh"⟩)
      ⟨⟨401, "unauthorized"⟩, ⟨200, "fresh"⟩, ⟨200, "payload"⟩⟩).2.1 (by decide),
   (apiFetch_retry_policy (some ⟨"old", "refresh"⟩)
      ⟨⟨401, "unauthorized"⟩, ⟨200, "fresh"⟩, ⟨200, "payload"⟩⟩).2.2.2.1 (by decide)⟩

/-! Claim C10: `withAccessToken`. -/

theorem char_toNat_lt (c : Char) : c.toNat < 1114112 := by
  rcases c.valid with h | h
  · exact Nat.lt_trans h (by omega)
  · exact h.2

theorem utf8Bytes_lt_256 {n : Nat} (h : n < 1114112) :
    ∀ b ∈ utf8Bytes n, b < 256 := by
  intro b hb
  rw [utf8Bytes] at hb
  split at hb
  · simp at hb
    omega
  · split at hb
    · simp at hb
      omega
    · split at hb
      · simp at hb
        omega
      · simp at hb
        omega

theorem percentByte_chars {b : Nat} (hblt : b < 256) :
    ∀ c ∈ percentByte b, c = '%' ∨ ∃ m, m < 16 ∧ c = hexDigit m := by
  intro c hc
  simp only [percentByte, List.mem_cons, List.not_mem_nil, or_false] at hc
  rcases hc with rfl | rfl | rfl
  · exact Or.inl rfl
  · exact Or.inr ⟨b / 16, by omega, rfl⟩
  · exact Or.inr ⟨b % 16, by omega, rfl⟩

theorem hexDigit_ne_sep :
    ∀ n < 16, hexDigit n ≠ '?' ∧ hexDigit n ≠ '&' ∧ hexDigit n ≠ '=' := by decide

/-- The percent-encoding of any string contains none of the URL separator
characters `?`, `&`, `=`, so appending `token=<encoded>` adds exactly one
query parameter and leaves the rest of the URL unchanged. -/
theorem encodeURIComponent_no_separators (s : String) :
    ∀ c ∈ (encodeURIComponent s).data, c ≠ '?' ∧ c ≠ '&' ∧ c ≠ '=' := by
  intro c hc
  have hc' : c ∈ s.data.flatMap (fun ch =>
      if isUriUnreserved ch then [ch]
      else (utf8Bytes ch.toNat).flatMap percentByte) := hc
  rcases List.mem_flatMap.mp hc' with ⟨ch, hch, hmem⟩
  by_cases hu : isUriUnreserved ch = true
  · rw [if_pos hu] at hmem
    have hEqc : c = ch := by simpa using hmem
    subst hEqc
    refine ⟨?_, ?_, ?_⟩ <;> intro hEq <;> rw [hEq] at hu <;>
      exact absurd hu (by decide)
  · rw [if_neg hu] at hmem
    rcases List.mem_flatMap.mp hmem with ⟨b, hb, hcb⟩
    have hblt : b < 256 := utf8Bytes_lt_256 (char_toNat_lt ch) b hb
    rcases percentByte_chars hblt c hcb with rfl | ⟨m, hm, rfl⟩
    · exact ⟨by decide, by decide, by decide⟩
    · exact hexDigit_ne_sep m hm

/-- C10 counterexample: a stored token record whose access token is the
empty string.  The claim as stated predicts `token=` is appended, but the
code's `if (!token) return url` treats the empty string like an absent
token and returns the URL unchanged. -/
theorem withAccessToken_counterexample :
    getAccessToken (some ⟨"", "refresh"⟩) = some ""
    ∧ withAccessToken (some ⟨"", "refresh"⟩) "/img" = "/img"
    ∧ withAccessToken (some ⟨"", "refresh"⟩) "/img" ≠
        "/img" ++ "?" ++ "token=" ++ encodeURIComponent "" :=
  ⟨rfl, rfl, by decide⟩

/-- C10 (amended): `withAccessToken` returns the URL unchanged when no
access token is stored or the stored access token is the empty string, and
otherwise appends `token=<URL-encoded access token>` using `&` as the
separator if the URL already contains a `?` and `?` otherwise, leaving the
rest of the URL unchanged (the encoded token introduces no `?`, `&` or `=`
characters). -/
theorem withAccessToken_spec (store : Option StoredTokens) (url : String) :
    (getAccessToken store = none → withAccessToken store url = url)
    ∧ (getAccessToken store = some "" → withAccessToken store url = url)
    ∧ (∀ token, getAccessToken store = some token → token ≠ "" →
        withAccessToken store url =
          url ++ (if url.data.contains '?' then "&" else "?") ++ "token="
            ++ encodeURIComponent token
        ∧ ∀ c ∈ (encodeURIComponent token).data, c ≠ '?' ∧ c ≠ '&' ∧ c ≠ '=') := by
  refine ⟨?_, ?_, ?_⟩
  · intro h
    simp only [withAccessToken, h]
  · intro h
    simp only [withAccessToken, h]
    rw [if_pos trivial]
  · intro token h hne
    simp only [withAccessToken, h]
    rw [if_neg hne]
    exact ⟨rfl, encodeURIComponent_no_separators token⟩

/-- Witness for C10 at concrete stores and URLs: no token leaves the URL
unchanged; a stored token is appended with `?` on a bare URL and with `&`
on a URL that already has a query string. -/
theorem withAccessToken_spec_witness :
    withAccessToken none "/img" = "/img"
    ∧ withAccessToken (some ⟨"tok", "r"⟩) "/img" = "/img?token=tok"
    ∧ withAccessToken (some ⟨"tok", "r"⟩) "/api/search?q=a" =
        "/api/search?q=a&token=tok" := by
  refine ⟨(withAccessToken_spec none "/img").1 rfl, ?_, ?_⟩
  · rw [((withAccessToken_spec (some ⟨"tok", "r"⟩) "/img").2.2 "tok" rfl
      (by decide)).1]
    decide
  · rw [((withAccessToken_spec (some ⟨"tok", "r"⟩) "/api/search?q=a").2.2 "tok" rfl
      (by decide)).1]
    decide

/-! Claim C5: the synchronous search client `searchPhotos`
(`src/unnamed/part_003`, the current search API client, whose
`searchPhotos(query, offset, limit = 10000)` supersedes the older
two-parameter revision also bundled in the snapshot). -/

/-- An HTTP request as assembled by the API clients: method, path, and the
query parameters in insertion order — the embedding of `URLSearchParams`,
whose `toString` serializes entries in insertion order. -/
structure ApiRequest where
  method : String
  path : String
  params : List (String × String)
deriving DecidableEq

/-- One search result item, the element type of `SearchResponse.items`. -/
structure SearchItem where
  id : String
  thumbUrl : String
  mediumUrl : String
  keywords : List String
  shotAt : Option String
  orientation : String
deriving DecidableEq

/-- The response type of `searchPhotos`:
`{items, next_cursor, total, total_all, returned}`. -/
structure SearchResponse where
  items : List SearchItem
  nextCursor : Option String
  total : Option Nat
  totalAll : Option Nat
  returned : Option Nat
deriving DecidableEq

/-- Embedding of the request side of `searchPhotos`:

    const params = new URLSearchParams({
      q: query, offset: String(offset), limit: String(limit) });
    return apiFetch(`/search?${params.toString()}`);

`apiFetch` without an init performs a GET. -/
def searchPhotosRequest (query : String) (offset limit : Nat) : ApiRequest :=
  { method := "GET"
    path := "/search"
    params := [("q", query), ("offset", toString offset), ("limit", toString limit)] }

/-- C5: `searchPhotos` issues a GET against `/search` carrying exactly the
query parameters `q`, `offset` and `limit` with the given values, and its
response has exactly the shape
`{items, next_cursor, total, total_all, returned}`. -/
theorem searchPhotos_request_spec (query : String) (offset limit : Nat) :
    (searchPhotosRequest query offset limit).method = "GET"
    ∧ (searchPhotosRequest query offset limit).path = "/search"
    ∧ (searchPhotosRequest query offset limit).params.map Prod.fst =
        ["q", "offset", "limit"]
    ∧ (searchPhotosRequest query offset limit).params.lookup "q" = some query
    ∧ (searchPhotosRequest query offset limit).params.lookup "offset" =
        some (toString offset)
    ∧ (searchPhotosRequest query offset limit).params.lookup "limit" =
        some (toString limit)
    ∧ ∀ r : SearchResponse,
        r = ⟨r.items, r.nextCursor, r.total, r.totalAll, r.returned⟩ := by
  refine ⟨rfl, rfl, rfl, ?_, ?_, ?_, fun r => rfl⟩
  · simp [searchPhotosRequest, List.lookup]
  · simp [searchPhotosRequest, List.lookup]
  · simp [searchPhotosRequest, List.lookup]

/-! Claim C4: async search pagination.  The server side of
`GET /search/async/{job_id}` lives in the backend, which is not part of the
repository snapshot, so the page read is modelled from the spec; the client
side is the embedding of `Gallery.tsx`'s infinite query
(`getNextPageParam` plus page concatenation) and `asyncSearchPage`. -/

/-- Decimal digit characters. -/
def digitChar : Nat → Char
  | 0 => '0' | 1 => '1' | 2 => '2' | 3 => '3' | 4 => '4'
  | 5 => '5' | 6 => '6' | 7 => '7' | 8 => '8' | _ => '9'

/-- Decimal numeral of `n`; the fuel argument makes the recursion
structural and `n + 1` always suffices. -/
def natToDecimalAux : Nat → Nat → List Char
  | 0, _ => []
  | fuel + 1, n =>
    if n < 10 then [digitChar n]
    else natToDecimalAux fuel (n / 10) ++ [digitChar (n % 10)]

/-- The decimal numeral the server writes into `next_cursor`. -/
def natToDecimal (n : Nat) : List Char := natToDecimalAux (n + 1) n

/-- Model of JavaScript's `Number(s)` restricted to the nonnegative decimal
numerals the async API produces as cursors. -/
def jsNumber (s : String) : Nat :=
  s.data.foldl (fun acc c => acc * 10 + (c.toNat - 48)) 0

theorem digitChar_toNat : ∀ d < 10, (digitChar d).toNat = 48 + d := by decide

theorem natToDecimalAux_ne_nil :
    ∀ (fuel n : Nat), 0 < fuel → natToDecimalAux fuel n ≠ [] := by
  intro fuel n h
  match fuel with
  | f + 1 =>
    rw [natToDecimalAux]
    split
    · simp
    · simp

theorem parse_natToDecimalAux :
    ∀ (fuel n : Nat), n < fuel →
      (natToDecimalAux fuel n).foldl (fun acc c => acc * 10 + (c.toNat - 48)) 0
        = n := by
  intro fuel
  induction fuel with
  | zero => intro n h; exact absurd h (by omega)
  | succ fuel ih =>
    intro n h
    rw [natToDecimalAux]
    by_cases hlt : n < 10
    · rw [if_pos hlt]
      simp only [List.foldl_cons, List.foldl_nil]
      rw [digitChar_toNat n hlt]
      omega
    · rw [if_neg hlt, List.foldl_append]
      have hdiv : n / 10 < n := Nat.div_lt_self (by omega) (by omega)
      rw [ih (n / 10) (by omega)]
      simp only [List.foldl_cons, List.foldl_nil]
      rw [digitChar_toNat (n % 10) (by omega)]
      omega

theorem jsNumber_natToDecimal (n : Nat) :
    jsNumber (natToDecimal n).asString = n :=
  parse_natToDecimalAux (n + 1) n (by omega)

theorem natToDecimal_ne_nil (n : Nat) : natToDecimal n ≠ [] :=
  natToDecimalAux_ne_nil (n + 1) n (by omega)

/-- Modelled from the spec: the state of a completed async search job — the
full stable result sequence discovered by the Search Job Executor
(`status == "completed"`, so `items` no longer grows and `total` is its
length). -/
structure AsyncJob where
  items : List SearchItem
deriving DecidableEq

/-- One page of an async search response as consumed by the Gallery:
`{items, next_cursor, total}`. -/
structure AsyncPage where
  items : List SearchItem
  nextCursor : Option String
  total : Nat
deriving DecidableEq

/-- Modelled from the spec: the server-side page read
`GET /search/async/{job_id}?offset=&limit=` of a completed job — the items
at `[offset, offset + limit)`, a `next_cursor` carrying the decimal next
offset while more items remain and absent otherwise, and the total count.
`POST /search/async/start` returns the same first page (offset 0) plus the
job id. -/
def asyncSearchPage (job : AsyncJob) (offset limit : Nat) : AsyncPage :=
  { items := (job.items.drop offset).take limit
    nextCursor :=
      if offset + limit < job.items.length
      then some (natToDecimal (offset + limit)).asString
      else none
    total := job.items.length }

/-- Embedding of `getNextPageParam` from `Gallery.tsx`:

    if (!lastPage.next_cursor) return undefined;
    return { offset: Number(lastPage.next_cursor), ... };

`!next_cursor` is true for an absent cursor and for the empty string. -/
def getNextPageParam (lastPage : AsyncPage) : Option Nat :=
  match lastPage.nextCursor with
  | none => none
  | some s => if s = "" then none else some (jsNumber s)

/-- The Gallery paging loop: fetch the page at the current offset, stop
when `getNextPageParam` yields nothing, else continue from the returned
offset; the displayed list is `pages.flatMap((page) => page.items)`. -/
def fetchPagesFuel : Nat → AsyncJob → Nat → Nat → List SearchItem
  | 0, _, _, _ => []
  | fuel + 1, job, offset, pageSize =>
    let page := asyncSearchPage job offset pageSize
    match getNextPageParam page with
    | none => page.items
    | some nextOffset => page.items ++ fetchPagesFuel fuel job nextOffset pageSize

/-- All items the Gallery accumulates for a completed job, starting from
the first page (offset 0, as returned by `startAsyncSearch`). -/
def gatherAllPages (job : AsyncJob) (pageSize : Nat) : List SearchItem :=
  fetchPagesFuel (job.items.length + 1) job 0 pageSize

theorem fetchPagesFuel_drop (job : AsyncJob) (pageSize : Nat)
    (hps : 0 < pageSize) :
    ∀ (fuel offset : Nat), job.items.length ≤ offset + fuel * pageSize →
      fetchPagesFuel fuel job offset pageSize = job.items.drop offset := by
  intro fuel
  induction fuel with
  | zero =>
    intro offset h
    simp only [Nat.zero_mul, Nat.add_zero] at h
    rw [fetchPagesFuel, List.drop_eq_nil_of_le h]
  | succ fuel ih =>
    intro offset h
    rw [fetchPagesFuel]
    by_cases hmore : offset + pageSize < job.items.length
    · have hcur : getNextPageParam (asyncSearchPage job offset pageSize) =
          some (offset + pageSize) := by
        rw [getNextPageParam, asyncSearchPage]
        dsimp only
        rw [if_pos hmore]
        dsimp only
        have hne : ¬((natToDecimal (offset + pageSize)).asString = "") :=
          fun hEmpty => natToDecimal_ne_nil (offset + pageSize)
            (congrArg String.data hEmpty)
        rw [if_neg hne]
        rw [jsNumber_natToDecimal]
      rw [hcur]
      dsimp only
      rw [ih (offset + pageSize) (by rw [Nat.succ_mul] at h; omega)]
      rw [asyncSearchPage]
      dsimp only
      rw [show job.items.drop (offset + pageSize) =
          (job.items.drop offset).drop pageSize from (List.drop_drop _ _ _).symm]
      exact List.take_append_drop _ _
    · have hcur : getNextPageParam (asyncSearchPage job offset pageSize) =
          none := by
        rw [getNextPageParam, asyncSearchPage]
        dsimp only
        rw [if_neg hmore]
      rw [hcur]
      dsimp only
      rw [asyncSearchPage]
      dsimp only
      exact List.take_of_length_le (by rw [List.length_drop]; omega)

/-- C4: once an async search job is completed, the Gallery loop — first
page at offset 0, then repeatedly `asyncSearchPage(jobId,
Number(next_cursor), pageSize)` until `next_cursor` is absent — accumulates
exactly the job's `total` items, in stable order (the concatenation of the
fetched pages is precisely the job's item sequence, so it is duplicate-free
whenever the job's items are). -/
theorem asyncSearch_pagination (job : AsyncJob) (pageSize : Nat)
    (hps : 0 < pageSize) :
    gatherAllPages job pageSize = job.items
    ∧ (gatherAllPages job pageSize).length = (asyncSearchPage job 0 pageSize).total
    ∧ (job.items.Nodup → (gatherAllPages job pageSize).Nodup) := by
  have hall : gatherAllPages job pageSize = job.items := by
    rw [gatherAllPages, fetchPagesFuel_drop job pageSize hps _ 0 (by
      have h1 : (job.items.length + 1) * 1 ≤ (job.items.length + 1) * pageSize :=
        Nat.mul_le_mul (Nat.le_refl _) hps
      omega)]
    rfl
  exact ⟨hall, by rw [hall]; rfl, fun hn => hall ▸ hn⟩

/-- Witness for C4: a three-item completed job read with page size two
yields exactly the three items in order. -/
theorem asyncSearch_pagination_witness :
    (0 : Nat) < 2
    ∧ gatherAllPages
        ⟨[⟨"a", "", "", [], none, "landscape"⟩, ⟨"b", "", "", [], none, "portrait"⟩,
          ⟨"c", "", "", [], none, "landscape"⟩]⟩ 2 =
      [⟨"a", "", "", [], none, "landscape"⟩, ⟨"b", "", "", [], none, "portrait"⟩,
        ⟨"c", "", "", [], none, "landscape"⟩] :=
  ⟨by decide,
   (asyncSearch_pagination
     ⟨[⟨"a", "", "", [], none, "landscape"⟩, ⟨"b", "", "", [], none, "portrait"⟩,
       ⟨"c", "", "", [], none, "landscape"⟩]⟩ 2 (by decide)).1⟩

/-! Claims C6 and C7: the maintenance-run registry.  The backend that owns
it is not part of the repository snapshot, so the registry is modelled from
the spec (§3 Run, §4.2 Run Registry); the admin page's cancel-button
condition is embedded from `frontend/src/pages/Admin.tsx`. -/

/-- The five maintenance-job kinds. -/
inductive JobKind where
  | scan
  | preview
  | orphanCleanup
  | shotAtBackfill
  | reindex
deriving DecidableEq

/-- The closed set of run states. -/
inductive RunStatus where
  | pending
  | running
  | completed
  | failed
  | cancelled
deriving DecidableEq

/-- A status is terminal when the run has stopped for good. -/
def RunStatus.isTerminal : RunStatus → Bool
  | .pending => false
  | .running => false
  | .completed => true
  | .failed => true
  | .cancelled => true

/-- Modelled from the spec: one Run record — id, kind, status, the
cooperative cancellation flag, and its (kind-specific) counters. -/
structure Run where
  id : Nat
  kind : JobKind
  status : RunStatus
  cancelRequested : Bool
  counters : List Nat
deriving DecidableEq

/-- Modelled from the spec: the Run Registry state — all runs ever created
and the next fresh run id. -/
structure Registry where
  runs : List Run
  nextId : Nat
deriving DecidableEq

/-- A run counts as active for a kind when it has that kind and is not
terminal. -/
def isActiveRun (k : JobKind) (r : Run) : Bool :=
  decide (r.kind = k) && !r.status.isTerminal

/-- The non-terminal run of a kind, if any. -/
def findActive (s : Registry) (k : JobKind) : Option Run :=
  s.runs.find? (isActiveRun k)

/-- The fresh pending run a `start` trigger creates. -/
def newRun (s : Registry) (k : JobKind) : Run :=
  ⟨s.nextId, k, .pending, false, []⟩

/-- Modelled from the spec: `start(kind)` — if a non-terminal run of the
kind exists return its id without creating anything (idempotent trigger),
else create a `pending` run with a fresh id. -/
def startRun (s : Registry) (k : JobKind) : Nat × Registry :=
  match findActive s k with
  | some r => (r.id, s)
  | none =>
    (s.nextId, { runs := s.runs ++ [newRun s k], nextId := s.nextId + 1 })

/-- The two non-error answers of `cancel`. -/
inductive CancelOutcome where
  | ok
  | noop
deriving DecidableEq

/-- Modelled from the spec: `cancel(kind)` sets the cooperative
cancellation flag if a run of the kind is `running` and answers `ok`;
otherwise — no run of the kind, or only terminal ones — it is a no-op
answering `noop`, never an error, with the state untouched. -/
def cancelRun (s : Registry) (k : JobKind) : CancelOutcome × Registry :=
  match s.runs.find?
      (fun r => decide (r.kind = k) && decide (r.status = RunStatus.running)) with
  | some r =>
    (.ok,
      { s with runs := s.runs.map (fun x =>
          if x.id = r.id then { x with cancelRequested := true } else x) })
  | none => (.noop, s)

/-- Modelled from the spec: the operations that mutate the registry —
triggers (`start`, `cancel`) and the worker transitions (a pending run
begins running; a running run reaches exactly one terminal state). -/
inductive RegistryOp where
  | start (k : JobKind)
  | cancel (k : JobKind)
  | beginWork (id : Nat)
  | finishWork (id : Nat) (final : RunStatus)

def applyOp (s : Registry) : RegistryOp → Registry
  | .start k => (startRun s k).2
  | .cancel k => (cancelRun s k).2
  | .beginWork id =>
    { s with runs := s.runs.map (fun r =>
        if r.id = id ∧ r.status = RunStatus.pending
        then { r with status := .running } else r) }
  | .finishWork id final =>
    if final.isTerminal then
      { s with runs := s.runs.map (fun r =>
          if r.id = id ∧ r.status = RunStatus.running
          then { r with status := final } else r) }
    else s

/-- The one-active-run-per-kind invariant. -/
def AtMostOneActive (s : Registry) : Prop :=
  ∀ k, s.runs.countP (isActiveRun k) ≤ 1

/-- N serialized `start` calls of the same kind, as the registry mutex
forces concurrent triggers to execute. -/
def startN : Nat → Registry → JobKind → List Nat × Registry
  | 0, s, _ => ([], s)
  | n + 1, s, k =>
    ((startRun s k).1 :: (startN n (startRun s k).2 k).1,
      (startN n (startRun s k).2 k).2)

theorem countP_active_map_le {f : Run → Run} {runs : List Run} {k : JobKind}
    (hf : ∀ x, isActiveRun k (f x) = true → isActiveRun k x = true) :
    (runs.map f).countP (isActiveRun k) ≤ runs.countP (isActiveRun k) := by
  rw [List.countP_map]
  exact List.countP_mono_left (fun x _ hx => hf x hx)

theorem applyOp_preserves (s : Registry) (op : RegistryOp)
    (h : AtMostOneActive s) : AtMostOneActive (applyOp s op) := by
  intro k'
  cases op with
  | start k =>
    simp only [applyOp]
    cases hfind : findActive s k with
    | some r =>
      simp only [startRun, hfind]
      exact h k'
    | none =>
      simp only [startRun, hfind]
      rw [List.countP_append]
      by_cases hk : k = k'
      · subst hk
        have hzero : s.runs.countP (isActiveRun k) = 0 := by
          rw [List.countP_eq_zero]
          rw [findActive] at hfind
          exact fun a ha => List.find?_eq_none.mp hfind a ha
        have hsing : ([newRun s k] : List Run).countP (isActiveRun k) ≤ 1 :=
          Nat.le_trans (List.countP_le_length _) (by simp)
        omega
      · have hnew : isActiveRun k' (newRun s k) = false := by
          simp [isActiveRun, newRun, hk]
        have hsing : ([newRun s k] : List Run).countP (isActiveRun k') = 0 := by
          simp [List.countP_cons, hnew]
        have := h k'
        omega
  | cancel k =>
    simp only [applyOp, cancelRun]
    cases hfind : s.runs.find?
        (fun r => decide (r.kind = k) && decide (r.status = RunStatus.running)) with
    | some r =>
      dsimp only
      refine Nat.le_trans (countP_active_map_le ?_) (h k')
      intro x hx
      by_cases hid : x.id = r.id
      · rwa [if_pos hid] at hx
      · rwa [if_neg hid] at hx
    | none => exact h k'
  | beginWork id =>
    simp only [applyOp]
    refine Nat.le_trans (countP_active_map_le ?_) (h k')
    intro x hx
    by_cases hc : x.id = id ∧ x.status = RunStatus.pending
    · have hsame : isActiveRun k' ({ x with status := RunStatus.running }) =
          isActiveRun k' x := by
        simp [isActiveRun, RunStatus.isTerminal, hc.2]
      rwa [if_pos hc, hsame] at hx
    · rwa [if_neg hc] at hx
  | finishWork id final =>
    simp only [applyOp]
    by_cases hterm : final.isTerminal = true
    · rw [if_pos hterm]
      refine Nat.le_trans (countP_active_map_le ?_) (h k')
      intro x hx
      by_cases hc : x.id = id ∧ x.status = RunStatus.running
      · rw [if_pos hc] at hx
        simp [isActiveRun, hterm] at hx
      · rwa [if_neg hc] at hx
    · rw [if_neg hterm]
      exact h k'

theorem applyOps_preserves (ops : List RegistryOp) :
    ∀ s : Registry, AtMostOneActive s → AtMostOneActive (ops.foldl applyOp s) := by
  induction ops with
  | nil => intro s h; exact h
  | cons op ops ih =>
    intro s h
    exact ih (applyOp s op) (applyOp_preserves s op h)

theorem startRun_of_active {s : Registry} {k : JobKind} {r : Run}
    (h : findActive s k = some r) : startRun s k = (r.id, s) := by
  simp only [startRun, h]

theorem startN_of_active :
    ∀ (n : Nat) (s : Registry) (k : JobKind) (r : Run),
      findActive s k = some r → startN n s k = (List.replicate n r.id, s) := by
  intro n
  induction n with
  | zero => intro s k r h; rfl
  | succ n ih =>
    intro s k r h
    simp only [startN, startRun_of_active h]
    rw [ih s k r h, List.replicate_succ]

theorem findActive_after_create {s : Registry} {k : JobKind}
    (h : findActive s k = none) :
    findActive (startRun s k).2 k = some (newRun s k) := by
  simp only [startRun, h]
  rw [findActive] at h ⊢
  rw [List.find?_append, h]
  simp [isActiveRun, newRun, RunStatus.isTerminal]

theorem startN_behavior (n : Nat) (s : Registry) (k : JobKind) (hn : 0 < n) :
    ∃ rid, (startN n s k).1 = List.replicate n rid ∧
      (startN n s k).2.runs.length =
        s.runs.length + (if (findActive s k).isSome then 0 else 1) := by
  cases hfind : findActive s k with
  | some r =>
    rw [startN_of_active n s k r hfind]
    exact ⟨r.id, rfl, by simp⟩
  | none =>
    match n, hn with
    | n + 1, _ =>
      have hfind' := findActive_after_create hfind
      refine ⟨s.nextId, ?_, ?_⟩
      · simp only [startN]
        rw [startN_of_active n (startRun s k).2 k _ hfind']
        dsimp only
        rw [List.replicate_succ]
        simp [startRun, hfind, newRun]
      · simp only [startN]
        rw [startN_of_active n (startRun s k).2 k _ hfind']
        dsimp only
        simp [startRun, hfind]

/-- C6: from any state satisfying the one-active-run-per-kind invariant,
every sequence of registry operations preserves it (the fresh registry
satisfies it); and N serialized `start(k)` calls all return one and the
same run id while creating exactly one new Run — or none at all if a run
of that kind was already active. -/
theorem runRegistry_single_active (s : Registry) (k : JobKind) (n : Nat)
    (hn : 0 < n) :
    AtMostOneActive { runs := [], nextId := 0 }
    ∧ (∀ ops : List RegistryOp, AtMostOneActive s →
        AtMostOneActive (ops.foldl applyOp s))
    ∧ (∃ rid, (startN n s k).1 = List.replicate n rid
        ∧ (startN n s k).2.runs.length =
            s.runs.length + (if (findActive s k).isSome then 0 else 1)) :=
  ⟨fun _ => by simp, fun ops h => applyOps_preserves ops s h,
    startN_behavior n s k hn⟩

/-- Witness for C6: three serialized `start(scan)` calls on the fresh
registry return one shared id and create exactly one run. -/
theorem runRegistry_single_active_witness :
    ∃ rid, (startN 3 { runs := [], nextId := 0 } JobKind.scan).1 =
        List.replicate 3 rid
      ∧ (startN 3 { runs := [], nextId := 0 } JobKind.scan).2.runs.length =
          ({ runs := [], nextId := 0 } : Registry).runs.length +
            (if (findActive { runs := [], nextId := 0 } JobKind.scan).isSome
             then 0 else 1) :=
  (runRegistry_single_active { runs := [], nextId := 0 } JobKind.scan 3
    (by decide)).2.2

/-- The scan-run status record the admin page displays
(`IndexRunStatus` in `frontend/src/api/admin.ts`). -/
structure IndexRunStatus where
  id : String
  status : String
  scanned : Nat
  created : Nat
  updated : Nat
  restored : Nat
  deleted : Nat
  startedAt : Option String
  finishedAt : Option String
  error : Option String
deriving DecidableEq

/-- Embedding of `run?.status === "running"` over the optional run of the
admin index status (`run` is `status?.run ?? null`). -/
def statusIsRunning : Option IndexRunStatus → Bool
  | none => false
  | some r => decide (r.status = "running")

/-- Embedding of the cancel-button condition in `Admin.tsx`
(`Остановить скан`): `disabled={cancelBusy || run?.status !== "running"}`. -/
def cancelButtonDisabled (cancelBusy : Bool) (run : Option IndexRunStatus) : Bool :=
  cancelBusy || !statusIsRunning run

/-- C7: `cancel` on a kind with no run or only terminal runs is a no-op —
it answers `noop` (not an error) and leaves the registry, hence every
run's status and counters, unchanged; and the admin page enables the
cancel action only while the displayed run's status is `running`. -/
theorem cancel_noop_spec :
    (∀ (s : Registry) (k : JobKind),
      (∀ r ∈ s.runs, r.kind = k → r.status.isTerminal = true) →
      cancelRun s k = (CancelOutcome.noop, s))
    ∧ (∀ (cancelBusy : Bool) (run : Option IndexRunStatus),
        cancelButtonDisabled cancelBusy run = false →
        cancelBusy = false ∧ ∃ r, run = some r ∧ r.status = "running") := by
  constructor
  · intro s k h
    have hnone : s.runs.find?
        (fun r => decide (r.kind = k) && decide (r.status = RunStatus.running)) =
        none := by
      rw [List.find?_eq_none]
      intro r hr
      simp only [Bool.and_eq_true, decide_eq_true_eq, not_and]
      intro hkind hstatus
      have := h r hr hkind
      rw [hstatus] at this
      exact absurd this (by decide)
    simp only [cancelRun, hnone]
  · intro cancelBusy run h
    simp only [cancelButtonDisabled, Bool.or_eq_false_iff, Bool.not_eq_false'] at h
    refine ⟨h.1, ?_⟩
    cases run with
    | none => exact absurd h.2 (by simp [statusIsRunning])
    | some r =>
      exact ⟨r, rfl, by simpa [statusIsRunning] using h.2⟩

/-- Witness for C7: cancelling on a registry holding only a completed scan
run is a `noop` leaving the state unchanged, and the button is enabled
exactly on a displayed `running` status. -/
theorem cancel_noop_spec_witness :
    cancelRun ⟨[⟨0, JobKind.scan, RunStatus.completed, false, [5, 1, 2]⟩], 1⟩
        JobKind.scan =
      (CancelOutcome.noop,
        ⟨[⟨0, JobKind.scan, RunStatus.completed, false, [5, 1, 2]⟩], 1⟩)
    ∧ (false = false ∧ ∃ r,
        (some ⟨"r1", "running", 3, 1, 0, 0, 0, none, none, none⟩ :
          Option IndexRunStatus) = some r ∧ r.status = "running") :=
  ⟨cancel_noop_spec.1 ⟨[⟨0, JobKind.scan, RunStatus.completed, false, [5, 1, 2]⟩], 1⟩
    JobKind.scan (by decide),
   cancel_noop_spec.2 false
    (some ⟨"r1", "running", 3, 1, 0, 0, 0, none, none, none⟩) (by decide)⟩

end PhotoSearch
